import Mathlib

/-!
Verification of the schedule_master repository.

Part I embeds the Multi-Track Interval Layout Engine (`assign_tracks`).
The engine is repository code that is not present under `src/`
(`src/` holds only the GUI layer that consumes its results), so its
definitions are modelled from the specification's algorithm description
(spec §4.1), as noted on each definition.

Part II embeds, directly from the source under `src/`:
- the index-based cell layout `GridPersonRow.draw_tasks_in_cell`
  (src/components/grid_row.py, src/main.py);
- the drag finalization `ScheduleView.finalize_task_drag` (src/main.py);
- the `Task` serialization round trip `to_dict` / `from_dict`
  (src/models.py).
-/

/-! ## Part I: the interval track assignment engine (modelled from the spec) -/

/-- Modelled from the spec: a task interval as seen by the engine
(spec §3): a `start` and an `end` time.  The engine is type-agnostic in
the time values; `Int` is used here.  The field `stop` models the
Python attribute `end` (`end` is a Lean keyword).  The assigned `track`
is returned alongside each interval rather than mutated in place
(spec §4.1 explicitly allows this purely functional presentation). -/
structure IntervalTask where
  start : Int
  stop : Int
deriving DecidableEq, Repr

/-- Comparison used for the internal sort: ascending `start` (spec §4.1 step 1). -/
def startLE (a b : IntervalTask) : Bool := decide (a.start ≤ b.start)

/-- Modelled from the spec: scan the per-track end times in index order and
return the first (lowest) index whose recorded end time is `≤ s`
(spec §4.1 steps 3 and 5), or `none` when no track is free. -/
def findSlot : List Int → Int → Option Nat
  | [], _ => none
  | e :: es, s => if e ≤ s then some 0 else (findSlot es s).map (· + 1)

/-- Modelled from the spec: process the (already sorted) tasks in order,
maintaining the list of track end times (spec §4.1 steps 2-4).  Returns
the `(interval, track)` pairs in processing order together with the
final end-time list (one entry per opened track). -/
def assignGo (ends : List Int) : List IntervalTask → List (IntervalTask × Nat) × List Int
  | [] => ([], ends)
  | t :: ts =>
    match findSlot ends t.start with
    | some k =>
      let r := assignGo (ends.set k t.stop) ts
      ((t, k) :: r.1, r.2)
    | none =>
      let r := assignGo (ends ++ [t.stop]) ts
      ((t, ends.length) :: r.1, r.2)

/-- Modelled from the spec: `assign_tracks` (spec §4.1).  Sorts the tasks
by `start` (stably, as Python's sort is), greedily places each task on
the lowest free track, and returns every task annotated with its track
together with the number of tracks used. -/
def assignTracks (tasks : List IntervalTask) : List (IntervalTask × Nat) × Nat :=
  let r := assignGo [] (tasks.mergeSort startLE)
  (r.1, r.2.length)

/-- The conceptual overlap predicate of spec §4.1 step 6: strict
inequalities, so intervals that merely touch do not overlap. -/
def overlaps (a b : IntervalTask) : Prop := a.start < b.stop ∧ b.start < a.stop

instance : DecidablePred fun p : IntervalTask × IntervalTask => overlaps p.1 p.2 := by
  intro p; unfold overlaps; infer_instance

instance (a b : IntervalTask) : Decidable (overlaps a b) := by
  unfold overlaps; infer_instance

/-- Whether the interval `u` contains the time point `p` (an interval is
treated as `[start, end)`, matching the strict overlap rule). -/
def containsPt (p : Int) (u : IntervalTask) : Bool :=
  decide (u.start ≤ p ∧ p < u.stop)

/-- The number of intervals of `l` that contain the time point `p`.
This is the sweep-line count of spec §8.1. -/
def countAt (l : List IntervalTask) (p : Int) : Nat :=
  (l.filter (containsPt p)).length

/-! ## Part II: embeddings of the source under `src/` -/

namespace Models

/-- `TaskStatus` (src/models.py lines 10-13).  The Python enum members carry
Chinese display strings as values; serialization uses the member names. -/
inductive TaskStatus where
  | TODO
  | BLOCKED
  | DONE
deriving DecidableEq, Repr

/-- The Python enum member name, as used by `to_dict` (`self.status.name`). -/
def TaskStatus.name : TaskStatus → String
  | .TODO => "TODO"
  | .BLOCKED => "BLOCKED"
  | .DONE => "DONE"

/-- Python `TaskStatus[name]` member lookup, as used by `from_dict`
(raises `KeyError`, i.e. `none`, on an unknown name). -/
def TaskStatus.fromName : String → Option TaskStatus
  | "TODO" => some TaskStatus.TODO
  | "BLOCKED" => some TaskStatus.BLOCKED
  | "DONE" => some TaskStatus.DONE
  | _ => none

/-- Modelled from the Python standard library `datetime.date` used by
src/models.py: a calendar date.  Python `date` objects always satisfy
`Date.Valid` below. -/
structure Date where
  year : Nat
  month : Nat
  day : Nat
deriving DecidableEq, Repr

/-- Gregorian leap-year rule, as in the Python `datetime` module. -/
def isLeap (y : Nat) : Bool :=
  y % 4 = 0 && (y % 100 != 0 || y % 400 = 0)

/-- Days in a month, as in the Python `datetime` module. -/
def daysInMonth (y m : Nat) : Nat :=
  if m = 2 then (if isLeap y then 29 else 28)
  else if m = 4 ∨ m = 6 ∨ m = 9 ∨ m = 11 then 30
  else 31

/-- The invariant every Python `date` object satisfies. -/
def Date.Valid (d : Date) : Prop :=
  1 ≤ d.year ∧ d.year ≤ 9999 ∧ 1 ≤ d.month ∧ d.month ≤ 12 ∧
    1 ≤ d.day ∧ d.day ≤ daysInMonth d.year d.month

instance (d : Date) : Decidable d.Valid := by
  unfold Date.Valid
  infer_instance

/-- Modelled from the Python standard library: `date.isoformat`, the
`YYYY-MM-DD` rendering with zero padding (the year of a Python date never
exceeds 9999, so it is exactly four digits). -/
def Date.isoformat (d : Date) : String :=
  ⟨[Nat.digitChar (d.year / 1000 % 10), Nat.digitChar (d.year / 100 % 10),
    Nat.digitChar (d.year / 10 % 10), Nat.digitChar (d.year % 10), '-',
    Nat.digitChar (d.month / 10 % 10), Nat.digitChar (d.month % 10), '-',
    Nat.digitChar (d.day / 10 % 10), Nat.digitChar (d.day % 10)]⟩

/-- A decimal digit character to its value. -/
def parseDigit (c : Char) : Option Nat :=
  if ('0' : Char) ≤ c ∧ c ≤ ('9' : Char) then some (c.toNat - 48) else none

/-- Modelled from the Python standard library: `date.fromisoformat` on
`YYYY-MM-DD` strings; parses the three fields and validates the calendar
date, raising `ValueError` (here `none`) otherwise. -/
def Date.fromisoformat (s : String) : Option Date :=
  match s.data with
  | [y1, y2, y3, y4, s1, m1, m2, s2, d1, d2] =>
    if s1 = '-' ∧ s2 = '-' then
      match parseDigit y1, parseDigit y2, parseDigit y3, parseDigit y4,
          parseDigit m1, parseDigit m2, parseDigit d1, parseDigit d2 with
      | some a, some b, some c, some d, some e, some f, some g, some h =>
        let dt : Date := ⟨((a * 10 + b) * 10 + c) * 10 + d, e * 10 + f, g * 10 + h⟩
        if dt.Valid then some dt else none
      | _, _, _, _, _, _, _, _ => none
    else none
  | _ => none

/-- A Python value as stored in the dicts that `to_dict` produces and
`from_dict` consumes. -/
inductive PyVal where
  | pstr : String → PyVal
  | pint : Int → PyVal
  | pbool : Bool → PyVal
  | pdate : Date → PyVal
deriving DecidableEq, Repr

/-- A Python dict with string keys, as an association list (Python dicts
preserve insertion order). -/
abbrev Dict := List (String × PyVal)

/-- Python `data.get(k, default)` for a string-valued field.  `to_dict`
always writes well-typed entries; Python itself performs no type checks,
so an ill-typed entry is outside this typed model (`none`). -/
def getStr (data : Dict) (k : String) (dflt : String) : Option String :=
  match List.lookup k data with
  | none => some dflt
  | some (PyVal.pstr s) => some s
  | some _ => none

/-- Python `data.get(k, default)` for an int-valued field. -/
def getInt (data : Dict) (k : String) (dflt : Int) : Option Int :=
  match List.lookup k data with
  | none => some dflt
  | some (PyVal.pint n) => some n
  | some _ => none

/-- Python `data.get(k, default)` for a bool-valued field. -/
def getBool (data : Dict) (k : String) (dflt : Bool) : Option Bool :=
  match List.lookup k data with
  | none => some dflt
  | some (PyVal.pbool b) => some b
  | some _ => none

/-- `Task` (src/models.py lines 39-54): exactly these ten dataclass fields —
in particular there is no `track` attribute. -/
structure Task where
  title : String
  person : String
  date : Date
  start_hour : Int := 9
  duration : Int := 2
  color : String := "#2E3440"
  status : TaskStatus := TaskStatus.TODO
  scheduled : Bool := true
  urgent : Bool := true
  id : String := ""
deriving DecidableEq, Repr

/-- `Task.to_dict` (src/models.py lines 56-68). -/
def Task.to_dict (t : Task) : Dict :=
  [("id", PyVal.pstr t.id), ("title", PyVal.pstr t.title),
   ("person", PyVal.pstr t.person), ("date", PyVal.pstr t.date.isoformat),
   ("start_hour", PyVal.pint t.start_hour), ("duration", PyVal.pint t.duration),
   ("color", PyVal.pstr t.color), ("status", PyVal.pstr t.status.name),
   ("scheduled", PyVal.pbool t.scheduled), ("urgent", PyVal.pbool t.urgent)]

/-- `Task.from_dict` (src/models.py lines 70-88) combined with
`__post_init__` (lines 52-54): a missing `date` key or an unknown status
name raises in Python (`none` here); a constructed task whose `id` is the
empty string receives a fresh uuid, modelled by the `uuid` parameter. -/
def Task.from_dict (uuid : String) (data : Dict) : Option Task := do
  let dv ← List.lookup "date" data
  let d ← match dv with
    | PyVal.pstr s => Date.fromisoformat s
    | PyVal.pdate dd => some dd
    | _ => none
  let status ← match List.lookup "status" data with
    | some (PyVal.pstr s) => TaskStatus.fromName s
    | some _ => none
    | none => some TaskStatus.TODO
  let rawId ← getStr data "id" ""
  let title ← getStr data "title" ""
  let person ← getStr data "person" ""
  let start_hour ← getInt data "start_hour" 9
  let duration ← getInt data "duration" 2
  let color ← getStr data "color" "#2E3440"
  let scheduled ← getBool data "scheduled" true
  let urgent ← getBool data "urgent" true
  some { title := title, person := person, date := d, start_hour := start_hour,
         duration := duration, color := color, status := status,
         scheduled := scheduled, urgent := urgent,
         id := if rawId = "" then uuid else rawId }

end Models

/-- A Qt rectangle `QRect(x, y, width, height)`; geometry only. -/
structure QRect where
  x : Int
  y : Int
  w : Int
  h : Int
deriving DecidableEq, Repr

/-- The uniform block height of `GridPersonRow.draw_tasks_in_cell`:
`min(24, (available_h - (count - 1) * 2) // count)` with
`available_h = rect.height() - spacing * 2` and `spacing = 4`.  Python `//`
is floor division, i.e. `Int.ediv` for the positive divisor `count`. -/
def block_h (rect : QRect) (count : Int) : Int :=
  min 24 (Int.ediv ((rect.h - 4 * 2) - (count - 1) * 2) count)

/-- The geometry of `GridPersonRow.draw_tasks_in_cell`
(src/components/grid_row.py lines 289-298; the same computation appears in
src/main.py lines 332-341): every task of a person+date cell is drawn at a
rectangle determined solely by its index in the cell's task list and the
cell rect — `task.start_hour` and `task.duration` are never read, and no
track value exists anywhere (`Models.Task` has no such field).  Each task is
paired with its block rectangle `QRect(rect.x + 4, y, rect.width - 8,
block_h)` where `y = spacing + idx * (block_h + 2)` (the `y` passed to
`QRect` in the source is relative to the row, exactly as in the code). -/
def draw_tasks_in_cell (rect : QRect) (tasks : List Models.Task) :
    List (Models.Task × QRect) :=
  if tasks.length = 0 then []
  else
    tasks.enum.map fun ix =>
      (ix.2, ⟨rect.x + 4, 4 + (ix.1 : Int) * (block_h rect tasks.length + 2),
              rect.w - 8, block_h rect tasks.length⟩)

namespace Main

/-- `Task` as defined in src/main.py lines 39-53: like the models.py one
but without `scheduled`/`urgent` (main.py's `TaskStatus` enum is textually
identical to models.py's, so `Models.TaskStatus` is reused). -/
structure Task where
  title : String
  person : String
  date : Models.Date
  start_hour : Int := 9
  duration : Int := 2
  color : String := "#2E3440"
  status : Models.TaskStatus := Models.TaskStatus.TODO
  id : String := ""
deriving DecidableEq, Repr

/-- The drag-related state of `ScheduleView` (src/main.py lines 461-467):
the task list, the dragged task (a Python object reference into
`all_tasks`, modelled as an index), and the drop target `(person, date)`
maintained by `update_drag_preview`. -/
structure ScheduleView where
  all_tasks : List Task
  dragging_task : Option Nat
  drag_target_info : Option (String × Models.Date)

/-- `ScheduleView.finalize_task_drag` (src/main.py lines 788-808): when a
drop target is set, the dragged task's `person` and `date` are retargeted
and its `status` reset to `TODO`; afterwards the drag state is cleared.
The loop over rows only resets widget-local strikethrough animation caches
(no task data), and `rebuild_content` only reads tasks.  The method is only
invoked while a drag is active, so `dragging_task` is then a valid
reference. -/
def ScheduleView.finalize_task_drag (st : ScheduleView) : ScheduleView :=
  match st.drag_target_info, st.dragging_task with
  | some (p, d), some i =>
    { all_tasks :=
        match st.all_tasks[i]? with
        | some task =>
            st.all_tasks.set i
              { task with person := p, date := d, status := Models.TaskStatus.TODO }
        | none => st.all_tasks
      dragging_task := none
      drag_target_info := none }
  | _, _ =>
    { st with dragging_task := none, drag_target_info := none }

end Main

/-! ### Basic facts about the slot scan -/

theorem findSlot_some_lt {ends : List Int} {s : Int} {k : Nat}
    (h : findSlot ends s = some k) : k < ends.length := by
  induction ends generalizing k with
  | nil => simp [findSlot] at h
  | cons e es ih =>
    simp only [findSlot] at h
    split at h
    · simp only [Option.some.injEq] at h
      simp [← h]
    · simp only [Option.map_eq_some'] at h
      obtain ⟨k0, hk0, rfl⟩ := h
      have := ih hk0
      simp only [List.length_cons]
      omega

theorem findSlot_some_le {ends : List Int} {s : Int} {k : Nat}
    (h : findSlot ends s = some k) (hk : k < ends.length) :
    ends.get ⟨k, hk⟩ ≤ s := by
  induction ends generalizing k with
  | nil => simp [findSlot] at h
  | cons e es ih =>
    simp only [findSlot] at h
    split at h
    · rename_i hc
      simp only [Option.some.injEq] at h
      subst h
      simpa using hc
    · simp only [Option.map_eq_some'] at h
      obtain ⟨k0, hk0, rfl⟩ := h
      have hk0' : k0 < es.length := by
        simp only [List.length_cons] at hk
        omega
      simpa using ih hk0 hk0'

theorem findSlot_none {ends : List Int} {s : Int}
    (h : findSlot ends s = none) :
    ∀ j (hj : j < ends.length), s < ends.get ⟨j, hj⟩ := by
  induction ends with
  | nil => intro j hj; simp at hj
  | cons e es ih =>
    simp only [findSlot] at h
    split at h
    · simp at h
    · rename_i hc
      intro j hj
      match j with
      | 0 => simpa using lt_of_not_ge hc
      | j + 1 =>
        simp only [Option.map_eq_none'] at h
        have hj' : j < es.length := by
          simp only [List.length_cons] at hj
          omega
        simpa using ih h j hj'

/-! ### Structural invariants of the greedy placement -/

/-- Every processed task appears in the output, in processing order. -/
theorem assignGo_fst_map (ends : List Int) (ts : List IntervalTask) :
    (assignGo ends ts).1.map Prod.fst = ts := by
  induction ts generalizing ends with
  | nil => simp [assignGo]
  | cons t ts ih =>
    simp only [assignGo]
    split <;> simp [ih]

/-- The list of track end times never shrinks. -/
theorem assignGo_len_le (ends : List Int) (ts : List IntervalTask) :
    ends.length ≤ (assignGo ends ts).2.length := by
  induction ts generalizing ends with
  | nil => simp [assignGo]
  | cons t ts ih =>
    simp only [assignGo]
    split
    · rename_i k hk
      have h := ih (ends.set k t.stop)
      simp only [List.length_set] at h
      simpa using h
    · have h := ih (ends ++ [t.stop])
      simp only [List.length_append, List.length_singleton] at h
      simpa using le_trans (by omega) h

/-- Every assigned track index is below the final track count. -/
theorem assignGo_track_lt (ends : List Int) (ts : List IntervalTask) :
    ∀ x ∈ (assignGo ends ts).1, x.2 < (assignGo ends ts).2.length := by
  induction ts generalizing ends with
  | nil => simp [assignGo]
  | cons t ts ih =>
    simp only [assignGo]
    split
    · rename_i k hk
      intro x hx
      simp only [List.mem_cons] at hx
      rcases hx with rfl | hx
      · have h1 := findSlot_some_lt hk
        have h2 := assignGo_len_le (ends.set k t.stop) ts
        simp only [List.length_set] at h2
        simpa using lt_of_lt_of_le h1 h2
      · exact ih _ x hx
    · intro x hx
      simp only [List.mem_cons] at hx
      rcases hx with rfl | hx
      · have h2 := assignGo_len_le (ends ++ [t.stop]) ts
        simp only [List.length_append, List.length_singleton] at h2
        simpa using lt_of_lt_of_le (by omega) h2
      · exact ih _ x hx

/-- Every track index at or above the initial count that is below the final
count was opened for (and assigned to) some task. -/
theorem assignGo_track_covered (ends : List Int) (ts : List IntervalTask) :
    ∀ k, ends.length ≤ k → k < (assignGo ends ts).2.length →
    ∃ x ∈ (assignGo ends ts).1, x.2 = k := by
  induction ts generalizing ends with
  | nil => intro k h1 h2; simp [assignGo] at h2; omega
  | cons t ts ih =>
    simp only [assignGo]
    split
    · rename_i j hj
      intro k h1 h2
      obtain ⟨x, hx, rfl⟩ := ih (ends.set j t.stop) k (by simpa using h1) h2
      exact ⟨x, by simp [hx]⟩
    · intro k h1 h2
      rcases Nat.eq_or_lt_of_le h1 with rfl | h1
      · exact ⟨(t, ends.length), by simp, rfl⟩
      · obtain ⟨x, hx, rfl⟩ := ih (ends ++ [t.stop]) k (by simp; omega) h2
        exact ⟨x, by simp [hx]⟩

/-- Key invariant: when tasks are processed in ascending-start order, every
task that the run places on a track that was already open at entry starts no
earlier than that track's entry end time. -/
theorem assignGo_start_ge (ends : List Int) (ts : List IntervalTask)
    (hs : List.Pairwise (fun a b => a.start ≤ b.start) ts) :
    ∀ x ∈ (assignGo ends ts).1, ∀ (hx : x.2 < ends.length),
      ends.get ⟨x.2, hx⟩ ≤ x.1.start := by
  induction ts generalizing ends with
  | nil => simp [assignGo]
  | cons t ts ih =>
    have hs1 : ∀ u ∈ ts, t.start ≤ u.start := (List.pairwise_cons.mp hs).1
    have hs2 := (List.pairwise_cons.mp hs).2
    simp only [assignGo]
    split
    · rename_i k hk
      intro x hx
      simp only [List.mem_cons] at hx
      rcases hx with rfl | hx
      · intro h2
        exact findSlot_some_le hk h2
      · intro h2
        have hlt : x.2 < (ends.set k t.stop).length := by simpa using h2
        have hmem : x.1 ∈ ts := by
          have h3 := List.mem_map_of_mem Prod.fst hx
          rwa [assignGo_fst_map] at h3
        by_cases hxk : x.2 = k
        · have h3 : ends.get ⟨x.2, h2⟩ ≤ t.start := by
            subst hxk
            exact findSlot_some_le hk h2
          exact le_trans h3 (hs1 _ hmem)
        · have h4 := ih (ends.set k t.stop) hs2 x hx hlt
          have h5 : (ends.set k t.stop).get ⟨x.2, hlt⟩ = ends.get ⟨x.2, h2⟩ := by
            simp [List.getElem_set_ne (by omega : k ≠ x.2)]
          rwa [h5] at h4
    · intro x hx
      simp only [List.mem_cons] at hx
      rcases hx with rfl | hx
      · intro h2
        simp at h2
      · intro h2
        have hlt : x.2 < (ends ++ [t.stop]).length := by
          simp only [List.length_append, List.length_singleton]
          omega
        have h4 := ih (ends ++ [t.stop]) hs2 x hx hlt
        have h5 : (ends ++ [t.stop]).get ⟨x.2, hlt⟩ = ends.get ⟨x.2, h2⟩ := by
          simp [List.getElem_append_left h2]
        rwa [h5] at h4

/-- No-collision chain invariant: in the output of a start-sorted run, any
earlier task sharing a track with a later task ends no later than the later
task starts. -/
theorem assignGo_pairwise (ends : List Int) (ts : List IntervalTask)
    (hs : List.Pairwise (fun a b => a.start ≤ b.start) ts) :
    List.Pairwise (fun a b : IntervalTask × Nat => a.2 = b.2 → a.1.stop ≤ b.1.start)
      (assignGo ends ts).1 := by
  induction ts generalizing ends with
  | nil => simp [assignGo]
  | cons t ts ih =>
    have hs1 : ∀ u ∈ ts, t.start ≤ u.start := (List.pairwise_cons.mp hs).1
    have hs2 := (List.pairwise_cons.mp hs).2
    simp only [assignGo]
    split
    · rename_i k hk
      refine List.pairwise_cons.mpr ⟨?_, ih (ends.set k t.stop) hs2⟩
      intro x hx htrack
      have hklt : k < ends.length := findSlot_some_lt hk
      have hlt : x.2 < (ends.set k t.stop).length := by
        simp only [List.length_set]
        omega
      have h4 := assignGo_start_ge (ends.set k t.stop) ts hs2 x hx hlt
      have h5 : (ends.set k t.stop).get ⟨x.2, hlt⟩ = t.stop := by
        simp [← htrack, List.getElem_set_self]
      rwa [h5] at h4
    · refine List.pairwise_cons.mpr ⟨?_, ih (ends ++ [t.stop]) hs2⟩
      intro x hx htrack
      have hlt : x.2 < (ends ++ [t.stop]).length := by
        simp only [List.length_append, List.length_singleton]
        omega
      have h4 := assignGo_start_ge (ends ++ [t.stop]) ts hs2 x hx hlt
      have h5 : (ends ++ [t.stop]).get ⟨x.2, hlt⟩ = t.stop := by
        have hx2 : x.2 = ends.length := htrack.symm
        simp [hx2]
      rwa [h5] at h4

/-! ### Counting lemmas for the sweep-line bound -/

theorem countAt_append (l1 l2 : List IntervalTask) (p : Int) :
    countAt (l1 ++ l2) p = countAt l1 p + countAt l2 p := by
  simp [countAt, List.filter_append]

theorem countAt_map_fst (l : List (IntervalTask × Nat)) (p : Int) :
    countAt (l.map Prod.fst) p = (l.filter fun x => containsPt p x.1).length := by
  simp only [countAt, List.filter_map, List.length_map]
  rfl

theorem countAt_perm {l l' : List IntervalTask} (h : l.Perm l') (p : Int) :
    countAt l p = countAt l' p := by
  simp only [countAt]
  exact (h.filter (containsPt p)).length_eq

/-- Upper bound: any family of annotated intervals whose tracks are all
below `n` and in which same-track intervals never overlap has at most `n`
members containing any given time point. -/
theorem countAt_le_of_tracks (l : List (IntervalTask × Nat)) (n : Nat)
    (h1 : ∀ x ∈ l, x.2 < n)
    (h2 : List.Pairwise (fun a b : IntervalTask × Nat => a.2 = b.2 → a.1.stop ≤ b.1.start) l)
    (p : Int) : countAt (l.map Prod.fst) p ≤ n := by
  rw [countAt_map_fst]
  set fl := l.filter fun x => containsPt p x.1 with hfl
  have hsub : fl.Sublist l := List.filter_sublist l
  have hpf : List.Pairwise (fun a b : IntervalTask × Nat => a.2 = b.2 → a.1.stop ≤ b.1.start) fl :=
    h2.sublist hsub
  have hne : List.Pairwise (fun a b : IntervalTask × Nat => a.2 ≠ b.2) fl := by
    refine hpf.imp_of_mem ?_
    intro a b ha hb hab
    have hca : containsPt p a.1 = true := by
      have := List.of_mem_filter ha
      simpa using this
    have hcb : containsPt p b.1 = true := by
      have := List.of_mem_filter hb
      simpa using this
    simp only [containsPt, decide_eq_true_eq] at hca hcb
    intro heq
    have := hab heq
    omega
  have hnodup : (fl.map (fun x => x.2)).Nodup := by
    have h := List.pairwise_map.mpr hne
    exact h
  have hcard : (fl.map (fun x => x.2)).toFinset.card = fl.length := by
    rw [List.toFinset_card_of_nodup hnodup]
    simp
  have hss : (fl.map (fun x => x.2)).toFinset ⊆ Finset.range n := by
    intro j hj
    simp only [List.mem_toFinset, List.mem_map] at hj
    obtain ⟨x, hx, rfl⟩ := hj
    exact Finset.mem_range.mpr (h1 x (hsub.mem hx))
  have := Finset.card_le_card hss
  rw [hcard, Finset.card_range] at this
  exact this

/-- Generalized sweep-line lower bound for the greedy run.  `hist` records
the `(interval, track)` pairs placed before the run reached state `ends`.
If some point is already contained in at least `ends.length` of the recorded
intervals, then some point is contained in at least `final track count` many
intervals of the full family. -/
theorem assignGo_count_lb (ts : List IntervalTask) (ends : List Int)
    (hist : List (IntervalTask × Nat))
    (hs : List.Pairwise (fun a b : IntervalTask => a.start ≤ b.start) ts)
    (h2 : ∀ x ∈ hist, ∀ v ∈ ts, x.1.start ≤ v.start)
    (h3 : ∀ j (hj : j < ends.length), ∃ u, (u, j) ∈ hist ∧ u.stop = ends.get ⟨j, hj⟩)
    (h4 : ∀ v ∈ ts, v.start < v.stop)
    (h5 : ∃ p, ends.length ≤ countAt (hist.map Prod.fst) p) :
    ∃ p, (assignGo ends ts).2.length ≤ countAt (hist.map Prod.fst ++ ts) p := by
  induction ts generalizing ends hist with
  | nil =>
    obtain ⟨p, hp⟩ := h5
    exact ⟨p, by simpa [assignGo] using hp⟩
  | cons t ts ih =>
    have hs1 : ∀ u ∈ ts, t.start ≤ u.start := (List.pairwise_cons.mp hs).1
    have hs2 := (List.pairwise_cons.mp hs).2
    simp only [assignGo]
    split
    · rename_i k hk
      have hklt : k < ends.length := findSlot_some_lt hk
      have hh2 : ∀ x ∈ hist ++ [(t, k)], ∀ v ∈ ts, x.1.start ≤ v.start := by
        intro x hx v hv
        rcases List.mem_append.mp hx with hx | hx
        · exact h2 x hx v (List.mem_cons_of_mem t hv)
        · simp only [List.mem_singleton] at hx
          subst hx
          exact hs1 v hv
      have hh3 : ∀ j (hj : j < (ends.set k t.stop).length),
          ∃ u, (u, j) ∈ hist ++ [(t, k)] ∧ u.stop = (ends.set k t.stop).get ⟨j, hj⟩ := by
        intro j hj
        have hj' : j < ends.length := by simpa using hj
        by_cases hjk : j = k
        · subst hjk
          refine ⟨t, by simp, ?_⟩
          simp
        · obtain ⟨u, hu1, hu2⟩ := h3 j hj'
          refine ⟨u, List.mem_append_left _ hu1, ?_⟩
          rw [hu2]
          have hne : k ≠ j := fun hh => hjk hh.symm
          simp [List.getElem_set_ne hne]
      have hh4 : ∀ v ∈ ts, v.start < v.stop := fun v hv => h4 v (List.mem_cons_of_mem t hv)
      have hh5 : ∃ p, (ends.set k t.stop).length ≤ countAt ((hist ++ [(t, k)]).map Prod.fst) p := by
        obtain ⟨p, hp⟩ := h5
        refine ⟨p, ?_⟩
        rw [List.map_append, countAt_append]
        simp only [List.length_set]
        omega
      obtain ⟨p, hp⟩ := ih (ends.set k t.stop) (hist ++ [(t, k)]) hs2 hh2 hh3 hh4 hh5
      refine ⟨p, ?_⟩
      have heq : (hist ++ [(t, k)]).map Prod.fst ++ ts = hist.map Prod.fst ++ (t :: ts) := by
        simp
      rwa [heq] at hp
    · rename_i hnone
      have hfree := findSlot_none hnone
      have hh2 : ∀ x ∈ hist ++ [(t, ends.length)], ∀ v ∈ ts, x.1.start ≤ v.start := by
        intro x hx v hv
        rcases List.mem_append.mp hx with hx | hx
        · exact h2 x hx v (List.mem_cons_of_mem t hv)
        · simp only [List.mem_singleton] at hx
          subst hx
          exact hs1 v hv
      have hh3 : ∀ j (hj : j < (ends ++ [t.stop]).length),
          ∃ u, (u, j) ∈ hist ++ [(t, ends.length)] ∧ u.stop = (ends ++ [t.stop]).get ⟨j, hj⟩ := by
        intro j hj
        have hj2 : j < ends.length + 1 := by simpa using hj
        by_cases hjl : j < ends.length
        · obtain ⟨u, hu1, hu2⟩ := h3 j hjl
          refine ⟨u, List.mem_append_left _ hu1, ?_⟩
          rw [hu2]
          simp [List.getElem_append_left hjl]
        · have hje : j = ends.length := by omega
          subst hje
          refine ⟨t, by simp, ?_⟩
          simp
      have hh4 : ∀ v ∈ ts, v.start < v.stop := fun v hv => h4 v (List.mem_cons_of_mem t hv)
      have key : ends.length ≤ countAt (hist.map Prod.fst) t.start := by
        rw [countAt_map_fst]
        have hsubset : Finset.range ends.length ⊆
            ((hist.filter fun x => containsPt t.start x.1).map (fun x => x.2)).toFinset := by
          intro j hj
          rw [Finset.mem_range] at hj
          obtain ⟨u, hu1, hu2⟩ := h3 j hj
          have hcont : containsPt t.start u = true := by
            simp only [containsPt, decide_eq_true_eq]
            refine ⟨h2 (u, j) hu1 t (by simp), ?_⟩
            rw [hu2]
            exact hfree j hj
          have hmem : (u, j) ∈ hist.filter fun x => containsPt t.start x.1 :=
            List.mem_filter.mpr ⟨hu1, hcont⟩
          simp only [List.mem_toFinset, List.mem_map]
          exact ⟨(u, j), hmem, rfl⟩
        have hcard := Finset.card_le_card hsubset
        rw [Finset.card_range] at hcard
        calc ends.length
            ≤ ((hist.filter fun x => containsPt t.start x.1).map (fun x => x.2)).toFinset.card :=
              hcard
          _ ≤ ((hist.filter fun x => containsPt t.start x.1).map (fun x => x.2)).length :=
              List.toFinset_card_le _
          _ = (hist.filter fun x => containsPt t.start x.1).length := by simp
      have hh5 : ∃ p, (ends ++ [t.stop]).length ≤
          countAt ((hist ++ [(t, ends.length)]).map Prod.fst) p := by
        refine ⟨t.start, ?_⟩
        rw [List.map_append, countAt_append]
        have hone : countAt ([(t, ends.length)].map Prod.fst) t.start = 1 := by
          have hwf := h4 t (by simp)
          simp [countAt, containsPt, hwf]
        rw [hone]
        rw [countAt_map_fst] at key ⊢
        simp only [List.length_append, List.length_singleton]
        omega
      obtain ⟨p, hp⟩ := ih (ends ++ [t.stop]) (hist ++ [(t, ends.length)]) hs2 hh2 hh3 hh4 hh5
      refine ⟨p, ?_⟩
      have heq : (hist ++ [(t, ends.length)]).map Prod.fst ++ ts
          = hist.map Prod.fst ++ (t :: ts) := by
        simp
      rwa [heq] at hp

/-! ### Facts about the full engine run -/

theorem startLE_trans (a b c : IntervalTask) :
    startLE a b → startLE b c → startLE a c := by
  simp only [startLE, decide_eq_true_eq]
  omega

theorem startLE_total (a b : IntervalTask) : startLE a b || startLE b a := by
  simp only [startLE]
  rcases le_total a.start b.start with h | h <;> simp [h]

/-- The internal sort produces a list with nondecreasing start times. -/
theorem sortedStarts (l : List IntervalTask) :
    List.Pairwise (fun a b : IntervalTask => a.start ≤ b.start) (l.mergeSort startLE) := by
  have h := List.sorted_mergeSort startLE_trans startLE_total l
  refine h.imp ?_
  intro a b hab
  simpa [startLE] using hab

/-- The annotated output lists exactly the input tasks (as a permutation). -/
theorem assignTracks_fst_perm (tasks : List IntervalTask) :
    ((assignTracks tasks).1.map Prod.fst).Perm tasks := by
  show ((assignGo [] (tasks.mergeSort startLE)).1.map Prod.fst).Perm tasks
  rw [assignGo_fst_map]
  exact List.mergeSort_perm tasks startLE

/-- Every assigned track is below the returned track count. -/
theorem assignTracks_track_lt (tasks : List IntervalTask) :
    ∀ x ∈ (assignTracks tasks).1, x.2 < (assignTracks tasks).2 :=
  assignGo_track_lt [] (tasks.mergeSort startLE)

/-- Every track below the returned count is assigned to some task. -/
theorem assignTracks_track_covered (tasks : List IntervalTask) :
    ∀ k, k < (assignTracks tasks).2 → ∃ x ∈ (assignTracks tasks).1, x.2 = k :=
  fun k hk => assignGo_track_covered [] (tasks.mergeSort startLE) k (by simp) hk

/-- Same-track chain invariant for the full run. -/
theorem assignTracks_pairwise (tasks : List IntervalTask) :
    List.Pairwise (fun a b : IntervalTask × Nat => a.2 = b.2 → a.1.stop ≤ b.1.start)
      (assignTracks tasks).1 :=
  assignGo_pairwise [] (tasks.mergeSort startLE) (sortedStarts tasks)

/-- Sweep-line upper bound: no time point is contained in more input
intervals than the returned track count. -/
theorem assignTracks_count_ub (tasks : List IntervalTask) (p : Int) :
    countAt tasks p ≤ (assignTracks tasks).2 := by
  have hperm := assignTracks_fst_perm tasks
  rw [← countAt_perm hperm p]
  exact countAt_le_of_tracks (assignTracks tasks).1 (assignTracks tasks).2
    (assignTracks_track_lt tasks) (assignTracks_pairwise tasks) p

/-- Sweep-line lower bound: for well-formed inputs the returned track count
is attained as a point-overlap count. -/
theorem assignTracks_count_lb (tasks : List IntervalTask)
    (hw : ∀ v ∈ tasks, v.start < v.stop) :
    ∃ p, (assignTracks tasks).2 ≤ countAt tasks p := by
  have hw' : ∀ v ∈ tasks.mergeSort startLE, v.start < v.stop := by
    intro v hv
    exact hw v (List.mem_mergeSort.mp hv)
  obtain ⟨p, hp⟩ := assignGo_count_lb (tasks.mergeSort startLE) [] []
    (sortedStarts tasks) (by simp) (by simp) hw' ⟨0, by simp [countAt]⟩
  refine ⟨p, ?_⟩
  simp only [List.map_nil, List.nil_append] at hp
  calc (assignTracks tasks).2 ≤ countAt (tasks.mergeSort startLE) p := hp
    _ = countAt tasks p := countAt_perm (List.mergeSort_perm tasks startLE) p

/-! ### Small helpers for the claim statements -/

theorem le_foldrMax (l : List Nat) : ∀ x ∈ l, x ≤ l.foldr max 0 := by
  induction l with
  | nil => simp
  | cons a l ih =>
    intro x hx
    simp only [List.mem_cons] at hx
    rcases hx with rfl | hx
    · simp [List.foldr_cons]
    · exact le_trans (ih x hx) (by simp [List.foldr_cons])

theorem foldrMax_mem_or_zero (l : List Nat) : l.foldr max 0 ∈ l ∨ l.foldr max 0 = 0 := by
  induction l with
  | nil => simp
  | cons a l ih =>
    simp only [List.foldr_cons]
    rcases le_total a (l.foldr max 0) with h | h
    · rcases ih with hm | hz
      · exact Or.inl (by simp [max_eq_right h, hm])
      · rw [hz] at h ⊢
        have ha : a = 0 := Nat.le_antisymm h (Nat.zero_le a)
        subst ha
        simp
    · exact Or.inl (by simp [max_eq_left h])

theorem findSlot_some_min {ends : List Int} {s : Int} {k : Nat}
    (h : findSlot ends s = some k) :
    ∀ j (hj : j < ends.length), j < k → s < ends.get ⟨j, hj⟩ := by
  induction ends generalizing k with
  | nil => simp [findSlot] at h
  | cons e es ih =>
    simp only [findSlot] at h
    split at h
    · simp only [Option.some.injEq] at h
      intro j hj hjk
      omega
    · rename_i hc
      simp only [Option.map_eq_some'] at h
      obtain ⟨k0, hk0, rfl⟩ := h
      intro j hj hjk
      match j with
      | 0 => simpa using lt_of_not_ge hc
      | j + 1 =>
        have hj' : j < es.length := by
          simp only [List.length_cons] at hj
          omega
        simpa using ih hk0 j hj' (by omega)

/-! ### Claim theorems for the engine -/

/-- C1: `assign_tracks` annotates every input task with a (non-negative,
being a natural number) track, and returns the number of distinct tracks
used: `max track + 1` for non-empty input, and `0` — with no mutation,
i.e. an empty annotation list — for empty input. -/
theorem claim_C1_result_count :
    assignTracks [] = ([], 0) ∧
    ∀ tasks : List IntervalTask, tasks ≠ [] →
      ((assignTracks tasks).1.map Prod.fst).Perm tasks ∧
      (assignTracks tasks).2
        = ((assignTracks tasks).1.map (fun x => x.2)).foldr max 0 + 1 := by
  constructor
  · simp [assignTracks, assignGo]
  · intro tasks hne
    refine ⟨assignTracks_fst_perm tasks, ?_⟩
    have hperm := assignTracks_fst_perm tasks
    have hres : (assignTracks tasks).1 ≠ [] := by
      intro hnil
      rw [hnil] at hperm
      simp only [List.map_nil] at hperm
      exact hne hperm.nil_eq.symm
    obtain ⟨x0, hx0⟩ := List.exists_mem_of_ne_nil _ hres
    have hcount_pos : 0 < (assignTracks tasks).2 :=
      Nat.pos_of_ne_zero fun hz => by
        have := assignTracks_track_lt tasks x0 hx0
        omega
    obtain ⟨x, hx, hxtr⟩ := assignTracks_track_covered tasks ((assignTracks tasks).2 - 1)
      (by omega)
    have hle : (assignTracks tasks).2 - 1
        ≤ ((assignTracks tasks).1.map (fun x => x.2)).foldr max 0 := by
      refine le_foldrMax _ _ ?_
      rw [← hxtr]
      exact List.mem_map_of_mem _ hx
    have hge : ((assignTracks tasks).1.map (fun x => x.2)).foldr max 0
        < (assignTracks tasks).2 := by
      rcases foldrMax_mem_or_zero ((assignTracks tasks).1.map (fun x => x.2)) with hm | hz
      · simp only [List.mem_map] at hm
        obtain ⟨y, hy, hyeq⟩ := hm
        rw [← hyeq]
        exact assignTracks_track_lt tasks y hy
      · omega
    omega

/-- Witness for C1 at a concrete non-empty input. -/
theorem claim_C1_result_count_witness :
    ((assignTracks [⟨0, 8⟩]).1.map Prod.fst).Perm [⟨0, 8⟩] ∧
    (assignTracks [⟨0, 8⟩]).2
      = ((assignTracks [⟨0, 8⟩]).1.map (fun x => x.2)).foldr max 0 + 1 :=
  claim_C1_result_count.2 [⟨0, 8⟩] (by simp)

/-- C2: after assignment, any two distinct tasks placed on the same track
satisfy `A.start ≥ B.end ∨ B.start ≥ A.end` — no two same-track tasks
overlap under the strict-inequality rule. -/
theorem claim_C2_no_collision (tasks : List IntervalTask) :
    List.Pairwise
      (fun a b : IntervalTask × Nat =>
        a.2 = b.2 → (a.1.start ≥ b.1.stop ∨ b.1.start ≥ a.1.stop))
      (assignTracks tasks).1 := by
  refine (assignTracks_pairwise tasks).imp ?_
  intro a b hab htr
  exact Or.inr (hab htr)

/-- Witness for C2 at a concrete input. -/
theorem claim_C2_no_collision_witness :
    List.Pairwise
      (fun a b : IntervalTask × Nat =>
        a.2 = b.2 → (a.1.start ≥ b.1.stop ∨ b.1.start ≥ a.1.stop))
      (assignTracks [⟨0, 8⟩, ⟨6, 14⟩, ⟨12, 16⟩]).1 :=
  claim_C2_no_collision [⟨0, 8⟩, ⟨6, 14⟩, ⟨12, 16⟩]

/-- C3 counterexample: the claim quantifies over every input, but for a
degenerate input interval (`end ≤ start`, accepted without validation) the
returned track count is `1` while no time point is contained in any
interval, so the count is not the maximum point-overlap of the input. -/
theorem claim_C3_counterexample :
    ¬ IsGreatest {n : Nat | ∃ p : Int, countAt [⟨5, 3⟩] p = n}
      (assignTracks [⟨5, 3⟩]).2 := by
  intro h
  obtain ⟨⟨p, hp⟩, -⟩ := h
  have h2 : (assignTracks [⟨5, 3⟩]).2 = 1 := by
    unfold assignTracks
    rw [List.mergeSort_singleton]
    decide
  have h0 : countAt [⟨5, 3⟩] p = 0 := by
    have hf : containsPt p ⟨5, 3⟩ = false := by
      simp only [containsPt, decide_eq_false_iff_not, not_and, not_lt]
      intro hq
      omega
    simp [countAt, hf]
  rw [h2, h0] at hp
  exact absurd hp (by decide)

/-- C3 (amended to well-formed inputs): for every input whose intervals all
satisfy `start < end`, the track count returned by `assign_tracks` is
exactly the maximum, over all time points, of the number of input intervals
containing that point (the interval-graph clique/chromatic number): the
greedy assignment is optimal, not merely valid. -/
theorem claim_C3_optimal (tasks : List IntervalTask)
    (hw : ∀ v ∈ tasks, v.start < v.stop) :
    IsGreatest {n : Nat | ∃ p : Int, countAt tasks p = n} (assignTracks tasks).2 := by
  constructor
  · obtain ⟨p, hp⟩ := assignTracks_count_lb tasks hw
    exact ⟨p, le_antisymm (assignTracks_count_ub tasks p) hp⟩
  · rintro n ⟨p, rfl⟩
    exact assignTracks_count_ub tasks p

/-- Witness for the amended C3 at a concrete input. -/
theorem claim_C3_optimal_witness :
    IsGreatest {n : Nat | ∃ p : Int, countAt [⟨0, 8⟩, ⟨6, 14⟩, ⟨12, 16⟩] p = n}
      (assignTracks [⟨0, 8⟩, ⟨6, 14⟩, ⟨12, 16⟩]).2 :=
  claim_C3_optimal [⟨0, 8⟩, ⟨6, 14⟩, ⟨12, 16⟩] (by decide)

/-- C4: greedy earliest-fit behaviour.  First, the concrete scenario:
inputs `(0,8)`, `(6,14)`, `(12,16)` receive tracks `0`, `1`, `0` and the
returned count is `2`.  Second, the general lowest-index rule: a successful
slot scan returns an index whose recorded end time is `≤ start` while every
lower-indexed track is still busy, and a failed scan means every track is
busy (so a new track is opened at the current count, as the definition of
`assignGo` then does). -/
theorem claim_C4_greedy_earliest_fit :
    (assignTracks [⟨0, 8⟩, ⟨6, 14⟩, ⟨12, 16⟩]
      = ([(⟨0, 8⟩, 0), (⟨6, 14⟩, 1), (⟨12, 16⟩, 0)], 2)) ∧
    (∀ (ends : List Int) (s : Int) (k : Nat), findSlot ends s = some k →
      ∃ hk : k < ends.length, ends.get ⟨k, hk⟩ ≤ s ∧
        ∀ j (hj : j < ends.length), j < k → s < ends.get ⟨j, hj⟩) ∧
    (∀ (ends : List Int) (s : Int), findSlot ends s = none →
      ∀ j (hj : j < ends.length), s < ends.get ⟨j, hj⟩) := by
  refine ⟨?_, ?_, ?_⟩
  · have hs : [(⟨0, 8⟩ : IntervalTask), ⟨6, 14⟩, ⟨12, 16⟩].mergeSort startLE
        = [(⟨0, 8⟩ : IntervalTask), ⟨6, 14⟩, ⟨12, 16⟩] :=
      List.mergeSort_of_sorted (by decide)
    unfold assignTracks
    rw [hs]
    decide
  · intro ends s k h
    exact ⟨findSlot_some_lt h, findSlot_some_le h _, findSlot_some_min h⟩
  · intro ends s h
    exact findSlot_none h

/-- Witness for C4's general conjuncts at concrete inputs. -/
theorem claim_C4_greedy_earliest_fit_witness :
    (∃ hk : 1 < [(10 : Int), 2].length, [(10 : Int), 2].get ⟨1, hk⟩ ≤ 5 ∧
      ∀ j (hj : j < [(10 : Int), 2].length), j < 1 → 5 < [(10 : Int), 2].get ⟨j, hj⟩) ∧
    ∀ j (hj : j < [(10 : Int), 9].length), (5 : Int) < [(10 : Int), 9].get ⟨j, hj⟩ :=
  ⟨claim_C4_greedy_earliest_fit.2.1 [10, 2] 5 1 (by decide),
    claim_C4_greedy_earliest_fit.2.2 [10, 9] 5 (by decide)⟩

/-- C5: determinism and stability.  `assignTracks` is a pure function, so
two calls on the same list are definitionally identical; substantively, the
engine's processing order is exactly the stable sort of the input: the
annotated output lists the tasks in the order obtained by sorting the
index-tagged input by (start, original index), and two entries with equal
`start` appear in an order that respects their original input positions. -/
theorem claim_C5_stability (tasks : List IntervalTask) :
    ((assignTracks tasks).1.map Prod.fst
      = ((tasks.enum).mergeSort (List.enumLE startLE)).map Prod.snd) ∧
    ∀ (p q i j : Nat) (x y : IntervalTask),
      ((tasks.enum).mergeSort (List.enumLE startLE))[p]? = some (i, x) →
      ((tasks.enum).mergeSort (List.enumLE startLE))[q]? = some (j, y) →
      x.start = y.start → i < j → p < q := by
  constructor
  · show (assignGo [] (tasks.mergeSort startLE)).1.map Prod.fst = _
    rw [assignGo_fst_map]
    exact List.mergeSort_enum.symm
  · intro p q i j x y hgp hgq hxy hij
    obtain ⟨hp, hpe⟩ := List.getElem?_eq_some_iff.mp hgp
    obtain ⟨hq, hqe⟩ := List.getElem?_eq_some_iff.mp hgq
    have hpw : List.Pairwise (fun a b => List.enumLE startLE a b)
        ((tasks.enum).mergeSort (List.enumLE startLE)) :=
      List.sorted_mergeSort (List.enumLE_trans startLE_trans)
        (List.enumLE_total startLE_total) tasks.enum
    rcases lt_trichotomy p q with h | h | h
    · exact h
    · exfalso
      subst h
      have hxe : ((i : Nat), x) = ((j : Nat), y) := hpe.symm.trans hqe
      simp only [Prod.mk.injEq] at hxe
      omega
    · exfalso
      have hrel := List.pairwise_iff_getElem.mp hpw q p hq hp h
      rw [hpe, hqe] at hrel
      have h1 : startLE y x = true := by simp [startLE, hxy]
      have h2 : startLE x y = true := by simp [startLE, hxy]
      simp [List.enumLE, h1, h2] at hrel
      omega

/-- Witness for C5: two equal-start tasks keep their input order. -/
theorem claim_C5_stability_witness : (0 : Nat) < 1 := by
  have heq : (([(⟨5, 6⟩ : IntervalTask), ⟨5, 7⟩].enum).mergeSort (List.enumLE startLE))
      = [(0, (⟨5, 6⟩ : IntervalTask)), (1, ⟨5, 7⟩)] := by
    rw [List.mergeSort_of_sorted (by decide)]
    rfl
  exact (claim_C5_stability [⟨5, 6⟩, ⟨5, 7⟩]).2 0 1 0 1 ⟨5, 6⟩ ⟨5, 7⟩
    (by rw [heq]; rfl) (by rw [heq]; rfl) rfl (by decide)

/-- C6: intervals that merely touch at a boundary (`A.end = B.start`) never
overlap under the strict rule and may share a track; in the concrete
scenario `(9,11)`, `(11,13)`, `(14,16)` all three tasks receive track `0`
and the returned track count is `1`. -/
theorem claim_C6_touching :
    (assignTracks [⟨9, 11⟩, ⟨11, 13⟩, ⟨14, 16⟩]
      = ([(⟨9, 11⟩, 0), (⟨11, 13⟩, 0), (⟨14, 16⟩, 0)], 1)) ∧
    ∀ a b : IntervalTask, a.stop = b.start → ¬ overlaps a b := by
  constructor
  · have hs : [(⟨9, 11⟩ : IntervalTask), ⟨11, 13⟩, ⟨14, 16⟩].mergeSort startLE
        = [(⟨9, 11⟩ : IntervalTask), ⟨11, 13⟩, ⟨14, 16⟩] :=
      List.mergeSort_of_sorted (by decide)
    unfold assignTracks
    rw [hs]
    decide
  · intro a b htouch hov
    obtain ⟨h1, h2⟩ := hov
    omega

/-- Witness for C6's touching rule at a concrete pair. -/
theorem claim_C6_touching_witness :
    ¬ overlaps ⟨9, 11⟩ ⟨11, 13⟩ :=
  claim_C6_touching.2 ⟨9, 11⟩ ⟨11, 13⟩ rfl

/-- C7: the engine is total and validation-free: for every input — including
degenerate intervals with `end ≤ start` — it returns normally with every
task annotated, and degenerate intervals go through the same comparison
rules, as the concrete degenerate run shows. -/
theorem claim_C7_total :
    (∀ tasks : List IntervalTask, ∃ pairs n, assignTracks tasks = (pairs, n) ∧
      (pairs.map Prod.fst).Perm tasks ∧ pairs.length = tasks.length) ∧
    assignTracks [⟨0, 10⟩, ⟨5, 3⟩] = ([(⟨0, 10⟩, 0), (⟨5, 3⟩, 1)], 2) := by
  constructor
  · intro tasks
    refine ⟨(assignTracks tasks).1, (assignTracks tasks).2, rfl, assignTracks_fst_perm tasks, ?_⟩
    have h := (assignTracks_fst_perm tasks).length_eq
    simpa using h
  · have hs : [(⟨0, 10⟩ : IntervalTask), ⟨5, 3⟩].mergeSort startLE
        = [(⟨0, 10⟩ : IntervalTask), ⟨5, 3⟩] :=
      List.mergeSort_of_sorted (by decide)
    unfold assignTracks
    rw [hs]
    decide

/-! ### Facts about the source embeddings -/

theorem parseDigit_digitChar (d : Nat) (h : d < 10) :
    Models.parseDigit (Nat.digitChar d) = some d := by
  interval_cases d <;> rfl

theorem daysInMonth_le (y m : Nat) : Models.daysInMonth y m ≤ 31 := by
  unfold Models.daysInMonth
  split
  · split <;> omega
  · split <;> omega

/-- The ISO round trip of the Python `date` type. -/
theorem Models.Date.fromisoformat_isoformat (d : Models.Date) (hv : d.Valid) :
    Models.Date.fromisoformat d.isoformat = some d := by
  obtain ⟨y, m, dd⟩ := d
  obtain ⟨h1, h2, h3, h4, h5, h6⟩ := hv
  simp only at h1 h2 h3 h4 h5 h6
  have hm99 : m ≤ 99 := by omega
  have hd99 : dd ≤ 31 := by
    have := daysInMonth_le y m
    omega
  unfold Models.Date.isoformat Models.Date.fromisoformat
  simp only
  rw [parseDigit_digitChar _ (by omega), parseDigit_digitChar _ (by omega),
      parseDigit_digitChar _ (by omega), parseDigit_digitChar _ (by omega),
      parseDigit_digitChar _ (by omega), parseDigit_digitChar _ (by omega),
      parseDigit_digitChar _ (by omega), parseDigit_digitChar _ (by omega)]
  rw [if_pos (by exact ⟨by trivial, by trivial⟩)]
  simp only
  have hy : ((y / 1000 % 10 * 10 + y / 100 % 10) * 10 + y / 10 % 10) * 10 + y % 10 = y := by
    omega
  have hm : m / 10 % 10 * 10 + m % 10 = m := by omega
  have hd : dd / 10 % 10 * 10 + dd % 10 = dd := by omega
  rw [hy, hm, hd]
  rw [if_pos ⟨h1, h2, h3, h4, h5, h6⟩]

/-- The status member-name round trip. -/
theorem Models.TaskStatus.fromName_name (s : Models.TaskStatus) :
    Models.TaskStatus.fromName s.name = some s := by
  cases s <;> rfl

/-- Indices of an enumeration mapped through an index-only function are the
mapped index range. -/
theorem enumFrom_map_fst {α β : Type} (f : Nat → β) :
    ∀ (n : Nat) (l : List α),
      (l.enumFrom n).map (fun ix => f ix.1) = (List.range' n l.length).map f := by
  intro n l
  induction l generalizing n with
  | nil => rfl
  | cons a l ih =>
    simp only [List.enumFrom, List.map_cons, List.length_cons, List.range',
      List.map]
    rw [ih]

/-- The rectangle column of the cell layout depends only on the cell rect
and the number of tasks. -/
theorem draw_tasks_in_cell_snd (rect : QRect) (tasks : List Models.Task) :
    (draw_tasks_in_cell rect tasks).map Prod.snd
      = if tasks.length = 0 then []
        else (List.range' 0 tasks.length).map fun i : Nat =>
          QRect.mk (rect.x + 4) (4 + (i : Int) * (block_h rect tasks.length + 2))
            (rect.w - 8) (block_h rect tasks.length) := by
  unfold draw_tasks_in_cell
  split
  · simp
  · rw [List.map_map]
    have h := enumFrom_map_fst
      (fun i : Nat => QRect.mk (rect.x + 4) (4 + (i : Int) * (block_h rect tasks.length + 2))
        (rect.w - 8) (block_h rect tasks.length)) 0 tasks
    exact h

/-! ### Claim theorems for the source -/

/-- C8: in the actual code the tasks of a person+date cell are laid out
purely by list position: the `i`-th task of a cell with `n ≥ 1` tasks is
drawn at vertical offset `4 + i * (block_h + 2)` with uniform height
`block_h = min(24, (available_h - (n - 1) * 2) // n)`, and the rectangles
do not depend on the tasks at all (in particular not on `start_hour` or
`duration`; no track value is computed — `Models.Task` has no such field). -/
theorem claim_C8_index_layout (rect : QRect) (tasks : List Models.Task) :
    (∀ i (hi : i < tasks.length),
      (draw_tasks_in_cell rect tasks)[i]?
        = some (tasks[i],
            ⟨rect.x + 4, 4 + (i : Int) * (block_h rect tasks.length + 2),
             rect.w - 8, block_h rect tasks.length⟩)) ∧
    (∀ tasks2 : List Models.Task, tasks.length = tasks2.length →
      (draw_tasks_in_cell rect tasks).map Prod.snd
        = (draw_tasks_in_cell rect tasks2).map Prod.snd) := by
  constructor
  · intro i hi
    unfold draw_tasks_in_cell
    rw [if_neg (by omega)]
    simp [List.getElem?_map, List.getElem?_eq_getElem hi]
  · intro tasks2 hlen
    rw [draw_tasks_in_cell_snd, draw_tasks_in_cell_snd, hlen]

/-- Witness for C8 at a concrete cell. -/
theorem claim_C8_index_layout_witness :
    (draw_tasks_in_cell ⟨100, 0, 240, 90⟩
        [{ title := "a", person := "p", date := ⟨2026, 10, 12⟩ },
         { title := "b", person := "p", date := ⟨2026, 10, 12⟩ }])[1]?
      = some ({ title := "b", person := "p", date := ⟨2026, 10, 12⟩ },
          ⟨104, 4 + 1 * (block_h ⟨100, 0, 240, 90⟩ 2 + 2), 232,
            block_h ⟨100, 0, 240, 90⟩ 2⟩) :=
  (claim_C8_index_layout ⟨100, 0, 240, 90⟩
    [{ title := "a", person := "p", date := ⟨2026, 10, 12⟩ },
     { title := "b", person := "p", date := ⟨2026, 10, 12⟩ }]).1 1 (by decide)

/-- C9: frame effect of a finalized drag over a valid target: exactly the
dragged task changes, and of it exactly `person`, `date` and `status`
(set to the target person, target date and `TODO`); `title`, `start_hour`,
`duration`, `color` and `id` are preserved, and every other task in
`all_tasks` is untouched. -/
theorem claim_C9_drag_frame (st : Main.ScheduleView) (i : Nat) (p : String)
    (d : Models.Date) (hi : i < st.all_tasks.length)
    (hdrag : st.dragging_task = some i)
    (htarget : st.drag_target_info = some (p, d)) :
    (st.finalize_task_drag.all_tasks.length = st.all_tasks.length) ∧
    (st.finalize_task_drag.all_tasks[i]?
      = some { st.all_tasks.get ⟨i, hi⟩ with
               person := p, date := d, status := Models.TaskStatus.TODO }) ∧
    (∀ j, j ≠ i → st.finalize_task_drag.all_tasks[j]? = st.all_tasks[j]?) := by
  have hgo : st.finalize_task_drag.all_tasks
      = st.all_tasks.set i
          { st.all_tasks.get ⟨i, hi⟩ with
            person := p, date := d, status := Models.TaskStatus.TODO } := by
    unfold Main.ScheduleView.finalize_task_drag
    rw [htarget, hdrag]
    simp [List.getElem?_eq_getElem hi]
  refine ⟨by rw [hgo]; simp, ?_, ?_⟩
  · rw [hgo]
    rw [List.getElem?_set_self (by simpa using hi)]
  · intro j hne
    rw [hgo]
    rw [List.getElem?_set_ne (fun hh => hne hh.symm)]

/-- Witness for C9 at a concrete two-task state. -/
theorem claim_C9_drag_frame_witness :
    (Main.ScheduleView.finalize_task_drag
        { all_tasks :=
            [{ title := "巡检", person := "张三", date := ⟨2026, 10, 12⟩ },
             { title := "喂养", person := "李四", date := ⟨2026, 10, 12⟩ }],
          dragging_task := some 0,
          drag_target_info := some ("王五", ⟨2026, 10, 13⟩) }).all_tasks.length = 2 :=
  (claim_C9_drag_frame
    { all_tasks :=
        [{ title := "巡检", person := "张三", date := ⟨2026, 10, 12⟩ },
         { title := "喂养", person := "李四", date := ⟨2026, 10, 12⟩ }],
      dragging_task := some 0,
      drag_target_info := some ("王五", ⟨2026, 10, 13⟩) }
    0 "王五" ⟨2026, 10, 13⟩ (by decide) rfl rfl).1

/-- C10: the serialize/deserialize round trip of src/models.py: for every
task with a non-empty `id` and a (valid, as all Python dates are) `date`,
`Task.from_dict (Task.to_dict t)` rebuilds a task equal to `t` in all ten
fields. -/
theorem claim_C10_roundtrip (t : Models.Task) (uuid : String)
    (hid : t.id ≠ "") (hd : t.date.Valid) :
    Models.Task.from_dict uuid t.to_dict = some t := by
  obtain ⟨title, person, date, sh, du, col, st, sch, ur, id⟩ := t
  simp only [Models.Task.to_dict, Models.Task.from_dict, List.lookup,
    Models.getStr, Models.getInt, Models.getBool]
  simp
  simp only at hid hd
  rw [Models.Date.fromisoformat_isoformat date hd, Models.TaskStatus.fromName_name]
  simp [hid]

/-- Witness for C10 at a concrete task. -/
theorem claim_C10_roundtrip_witness :
    Models.Task.from_dict "fresh123"
        (Models.Task.to_dict
          { title := "巡检", person := "张三", date := ⟨2026, 10, 12⟩,
            id := "ab12cd34" })
      = some { title := "巡检", person := "张三", date := ⟨2026, 10, 12⟩,
               id := "ab12cd34" } :=
  claim_C10_roundtrip
    { title := "巡检", person := "张三", date := ⟨2026, 10, 12⟩, id := "ab12cd34" }
    "fresh123" (by decide) (by decide)
